import Mathlib

/-
Verification of the spectral frame builder (analysis/spectral.py of the
ChamberForm repository) against its natural-language specification.

Modelling conventions.  Python floats supplied from outside (offsets,
frequencies, configuration values) are exact rationals, so they are embedded
as `ℚ`.  Values produced by transcendental arithmetic (amplitudes
`1 / n ** rolloff`, cents `1200 * log2 f`, the centroid, spread and the
square root) are embedded as real numbers, the ideal-arithmetic reading of
the floating point computation.  Python exceptions are embedded with
`Except String`; `None` with `Option`.  The external music21 collaborator
(score streams, verticality iteration, transposition) is embedded
abstractly: a verticality carries exactly the data the source reads from it.
-/

/-- One pitch as the source reads it: a spelling key (`nameWithOctave`)
and a frequency in Hz (`p.frequency`). -/
structure MPitch where
  nameWithOctave : String
  frequency : ℚ
deriving DecidableEq

/-- One timespan of a verticality; `pitches = none` embeds a timespan object
without a `pitches` attribute (the `hasattr` check in the source). -/
structure MTimespan where
  pitches : Option (List MPitch)
deriving DecidableEq

/-- One verticality as the source reads it: offset, optional time to the
next event, and the start-and-overlap timespans. -/
structure Verticality where
  offset : ℚ
  timeToNextEvent : Option ℚ
  startAndOverlapTimespans : List MTimespan
deriving DecidableEq

/-- The three values music21's `atSoundingPitch` attribute can take
(`True`, `False`, or the string `'unknown'`). -/
inductive SPFlag where
  | atTrue : SPFlag
  | atFalse : SPFlag
  | unknown : SPFlag
deriving DecidableEq

/-- A part-like sub-stream: the only datum the source reads from it is its
`atSoundingPitch` flag. -/
structure PartStream where
  atSoundingPitch : SPFlag
deriving DecidableEq

/-- A score stream: its own `atSoundingPitch` flag and its part-like
sub-streams (`getElementsByClass('Stream')`). -/
structure MStream where
  atSoundingPitch : SPFlag
  partLikeStreams : List PartStream
deriving DecidableEq

/-- `s.hasPartLikeStreams()` in the model: the stream has at least one
part-like sub-stream. -/
def MStream.hasPartLikeStreams (s : MStream) : Bool :=
  !s.partLikeStreams.isEmpty

/-- The emitted record, mirroring the `SpectralFrame` dataclass. -/
structure SpectralFrame where
  offset : ℚ
  endOffset : ℚ
  fundamentalsHz : List ℚ
  centroidHz : Option ℝ
  spreadHz : Option ℝ
  totalPartials : ℕ
  commonPartialCount : Option ℕ

/-- The keyword configuration of `analyze`. -/
structure Config where
  toSoundingPitch : Bool
  keepDuplicates : Bool
  includeEmpty : Bool
  maxPartials : ℤ
  rolloff : ℚ
  computeCommonPartials : Bool
  commonPartialToleranceCents : ℚ

/-- `_to_sounding_pitch`: transpose the stream when needed.  The external
`s.toSoundingPitch(inPlace=False)` collaborator call is the function
argument `transpose`.  Mirrors the early-return control flow of the
source. -/
def applySoundingPitch (transpose : MStream → MStream) (s : MStream)
    (toSoundingPitch : Bool) : MStream :=
  if !toSoundingPitch then s
  else
    match
      (if s.hasPartLikeStreams then
        match s.partLikeStreams.head? with
        | some firstPartLike =>
            if firstPartLike.atSoundingPitch = SPFlag.atFalse then
              some (transpose s)
            else none
        | none => none
      else none) with
    | some transposed => transposed
    | none =>
        if s.atSoundingPitch = SPFlag.atFalse then transpose s else s

/-- The pitches gathered from the verticality's start-and-overlap timespans
(the first loop of `_verticality_fundamental_pitches`); a timespan with no
`pitches` attribute contributes nothing. -/
def collectVertPitches (v : Verticality) : List MPitch :=
  v.startAndOverlapTimespans.flatMap (fun ts =>
    match ts.pitches with
    | none => []
    | some ps => ps)

/-- The deduplication loop of `_verticality_fundamental_pitches`: walk the
pitch list keeping the first pitch of every `nameWithOctave` key; `seen` is
the set of keys already emitted. -/
def dedupLoop (seen : List String) : List MPitch → List MPitch
  | [] => []
  | p :: rest =>
      if p.nameWithOctave ∈ seen then dedupLoop seen rest
      else p :: dedupLoop (p.nameWithOctave :: seen) rest

/-- `_verticality_fundamental_pitches`. -/
def verticalityFundamentalPitches (v : Verticality) (keepDuplicates : Bool) :
    List MPitch :=
  let pitches := collectVertPitches v
  if keepDuplicates then pitches else dedupLoop [] pitches

/-- `_partial_peaks`: validate the configuration, then build the partial
frequency and amplitude lists by appending, one fundamental at a time,
skipping non-positive fundamentals.  `List.range' 1 maxPartials.toNat` is
`range(1, maxPartials + 1)`. -/
noncomputable def synthPartialPeaks (fundamentalsHz : List ℚ)
    (maxPartials : ℤ) (rolloff : ℚ) : Except String (List ℚ × List ℝ) :=
  if maxPartials < 1 then Except.error "maxPartials must be >= 1"
  else if rolloff ≤ 0 then Except.error "rolloff must be > 0"
  else Except.ok (fundamentalsHz.foldl (fun acc f0 =>
    if f0 ≤ 0 then acc
    else (List.range' 1 maxPartials.toNat).foldl (fun acc2 (n : ℕ) =>
      (acc2.1 ++ [f0 * (n : ℚ)], acc2.2 ++ [1 / (n : ℝ) ^ (rolloff : ℝ)]))
      acc) ([], []))

/-- `sum(f * a for f, a in zip(freqs, amps))`. -/
noncomputable def weightedFreqSum (freqs : List ℚ) (amps : List ℝ) : ℝ :=
  (List.zipWith (fun (f : ℚ) (a : ℝ) => (f : ℝ) * a) freqs amps).sum

/-- `sum(a * ((f - centroid) ** 2) for f, a in zip(freqs, amps))`. -/
noncomputable def weightedSqDevSum (freqs : List ℚ) (amps : List ℝ)
    (centroid : ℝ) : ℝ :=
  (List.zipWith (fun (f : ℚ) (a : ℝ) => a * ((f : ℝ) - centroid) ^ 2)
    freqs amps).sum

open Classical in
/-- `_centroid_and_spread`. -/
noncomputable def centroidAndSpread (freqs : List ℚ) (amps : List ℝ) :
    Option ℝ × Option ℝ :=
  if freqs.isEmpty then (none, none)
  else
    let ampSum : ℝ := amps.sum
    if ampSum ≤ 0 then (none, none)
    else
      let centroid := weightedFreqSum freqs amps / ampSum
      let variance := weightedSqDevSum freqs amps centroid / ampSum
      (some centroid, some (Real.sqrt (max 0 variance)))

/-- The cents value `1200.0 * math.log2(f)` of a frequency. -/
noncomputable def centsVal (f : ℚ) : ℝ := 1200 * Real.logb 2 (f : ℝ)

open Classical in
/-- The sorted cents list built at the top of `_common_partial_count`:
keep positive frequencies, map to cents, sort ascending. -/
noncomputable def sortedCents (freqs : List ℚ) : List ℝ :=
  ((freqs.filter (fun f => 0 < f)).map centsVal).insertionSort (· ≤ ·)

open Classical in
/-- The clustering walk of `_common_partial_count`: `last` is the previous
cents value, `clusterSize` the size of the open cluster, `commonCount` the
count accumulated so far; the final flush closes the last cluster. -/
noncomputable def clusterWalk (toleranceCents : ℝ) :
    List ℝ → ℝ → ℕ → ℕ → ℕ
  | [], _, clusterSize, commonCount =>
      if 1 < clusterSize then commonCount + (clusterSize - 1) else commonCount
  | c :: rest, last, clusterSize, commonCount =>
      if c - last ≤ toleranceCents then
        clusterWalk toleranceCents rest c (clusterSize + 1) commonCount
      else
        clusterWalk toleranceCents rest c 1
          (if 1 < clusterSize then commonCount + (clusterSize - 1)
           else commonCount)

/-- `_common_partial_count`. -/
noncomputable def commonPartialCountOf (freqs : List ℚ)
    (toleranceCents : ℚ) : Except String ℕ :=
  if toleranceCents ≤ 0 then Except.error "toleranceCents must be > 0"
  else if freqs.length < 2 then Except.ok 0
  else
    match sortedCents freqs with
    | [] => Except.ok 0
    | c0 :: restCents =>
        if restCents.isEmpty then Except.ok 0
        else Except.ok (clusterWalk (toleranceCents : ℝ) restCents c0 1 0)

/-- The `fundamentalsHz` tuple computed for one verticality inside
`analyze`: pitches of the verticality, positive frequencies only. -/
def vertFundamentals (cfg : Config) (v : Verticality) : List ℚ :=
  ((verticalityFundamentalPitches v cfg.keepDuplicates).filter
    (fun p => 0 < p.frequency)).map (fun p => p.frequency)

/-- The per-verticality loop of `analyze`, embedded as structural recursion
over the verticality sequence; a raised `ValueError` aborts the whole call
with `Except.error`. -/
noncomputable def analyzeVerticalities (cfg : Config) :
    List Verticality → Except String (List SpectralFrame)
  | [] => Except.ok []
  | v :: rest =>
      match v.timeToNextEvent with
      | none => analyzeVerticalities cfg rest
      | some durationToNext =>
          let endOffset := v.offset + durationToNext
          let fundamentalsHz := vertFundamentals cfg v
          if fundamentalsHz.isEmpty ∧ ¬cfg.includeEmpty then
            analyzeVerticalities cfg rest
          else do
            let pair ← synthPartialPeaks fundamentalsHz cfg.maxPartials
              cfg.rolloff
            let cs := centroidAndSpread pair.1 pair.2
            let commonCount ←
              if cfg.computeCommonPartials then
                Except.map some
                  (commonPartialCountOf pair.1 cfg.commonPartialToleranceCents)
              else Except.ok none
            let frames ← analyzeVerticalities cfg rest
            Except.ok (SpectralFrame.mk v.offset endOffset fundamentalsHz
              cs.1 cs.2 pair.1.length commonCount :: frames)

/-- The external music21 services `analyze` consumes after the
sounding-pitch step: `s.toSoundingPitch(inPlace=False)` and the verticality
sequence of `s.asTimespans(...).iterateVerticalities()`. -/
structure Collaborator where
  transpose : MStream → MStream
  verticalitiesOf : MStream → List Verticality

/-- `analyze` on a pre-parsed stream: apply the sounding-pitch step, derive
the verticalities, run the frame loop. -/
noncomputable def analyze (collab : Collaborator) (s : MStream)
    (cfg : Config) : Except String (List SpectralFrame) :=
  analyzeVerticalities cfg
    (collab.verticalitiesOf
      (applySoundingPitch collab.transpose s cfg.toSoundingPitch))

/-- Spec-level partial frequencies: one partial `f0 * n` for every positive
fundamental `f0` and every harmonic index `n` from 1 to `maxPartials`. -/
def specPartialFreqs (fundamentalsHz : List ℚ) (maxPartials : ℤ) : List ℚ :=
  (fundamentalsHz.filter (fun f0 => 0 < f0)).flatMap (fun f0 =>
    (List.range' 1 maxPartials.toNat).map (fun (n : ℕ) => f0 * (n : ℚ)))

/-- Spec-level partial amplitudes: `1 / n ^ rolloff` for every positive
fundamental and every harmonic index `n` from 1 to `maxPartials`. -/
noncomputable def specPartialAmps (fundamentalsHz : List ℚ)
    (maxPartials : ℤ) (rolloff : ℚ) : List ℝ :=
  (fundamentalsHz.filter (fun f0 => 0 < f0)).flatMap (fun _ =>
    (List.range' 1 maxPartials.toNat).map
      (fun (n : ℕ) => 1 / (n : ℝ) ^ (rolloff : ℝ)))

/-- Appending-in-a-loop builds the two mapped lists. -/
theorem foldl_append_pair {α β γ : Type} (g : α → β) (h : α → γ)
    (ns : List α) (acc : List β × List γ) :
    ns.foldl (fun acc2 n => (acc2.1 ++ [g n], acc2.2 ++ [h n])) acc =
      (acc.1 ++ ns.map g, acc.2 ++ ns.map h) := by
  induction ns generalizing acc with
  | nil => simp
  | cons n ns ih => simp [ih]

/-- Unfolding `specPartialFreqs` over a positive head fundamental. -/
theorem specPartialFreqs_cons_of_pos {f0 : ℚ} (rest : List ℚ) (m : ℤ)
    (hpos : 0 < f0) :
    specPartialFreqs (f0 :: rest) m =
      (List.range' 1 m.toNat).map (fun (n : ℕ) => f0 * (n : ℚ)) ++
        specPartialFreqs rest m := by
  unfold specPartialFreqs
  rw [List.filter_cons_of_pos (by simpa using hpos), List.flatMap_cons]

/-- Unfolding `specPartialFreqs` over a non-positive head fundamental. -/
theorem specPartialFreqs_cons_of_nonpos {f0 : ℚ} (rest : List ℚ) (m : ℤ)
    (h0 : ¬0 < f0) :
    specPartialFreqs (f0 :: rest) m = specPartialFreqs rest m := by
  unfold specPartialFreqs
  rw [List.filter_cons_of_neg (by simpa using h0)]

/-- Unfolding `specPartialAmps` over a positive head fundamental. -/
theorem specPartialAmps_cons_of_pos {f0 : ℚ} (rest : List ℚ) (m : ℤ)
    (roll : ℚ) (hpos : 0 < f0) :
    specPartialAmps (f0 :: rest) m roll =
      (List.range' 1 m.toNat).map (fun (n : ℕ) => 1 / (n : ℝ) ^ (roll : ℝ)) ++
        specPartialAmps rest m roll := by
  unfold specPartialAmps
  rw [List.filter_cons_of_pos (by simpa using hpos), List.flatMap_cons]

/-- Unfolding `specPartialAmps` over a non-positive head fundamental. -/
theorem specPartialAmps_cons_of_nonpos {f0 : ℚ} (rest : List ℚ) (m : ℤ)
    (roll : ℚ) (h0 : ¬0 < f0) :
    specPartialAmps (f0 :: rest) m roll = specPartialAmps rest m roll := by
  unfold specPartialAmps
  rw [List.filter_cons_of_neg (by simpa using h0)]

/-- The accumulator fold of `_partial_peaks` computes the spec-level
flat-map form. -/
theorem synthPartialPeaks_foldl_eq (fundamentalsHz : List ℚ)
    (maxPartials : ℤ) (rolloff : ℚ) (acc : List ℚ × List ℝ) :
    fundamentalsHz.foldl (fun acc f0 =>
      if f0 ≤ 0 then acc
      else (List.range' 1 maxPartials.toNat).foldl (fun acc2 (n : ℕ) =>
        (acc2.1 ++ [f0 * (n : ℚ)], acc2.2 ++ [1 / (n : ℝ) ^ (rolloff : ℝ)]))
        acc) acc =
      (acc.1 ++ specPartialFreqs fundamentalsHz maxPartials,
       acc.2 ++ specPartialAmps fundamentalsHz maxPartials rolloff) := by
  induction fundamentalsHz generalizing acc with
  | nil => simp [specPartialFreqs, specPartialAmps]
  | cons f0 rest ih =>
      rw [List.foldl_cons]
      by_cases h0 : f0 ≤ 0
      · have hnot : ¬0 < f0 := not_lt.mpr h0
        rw [if_pos h0, ih, specPartialFreqs_cons_of_nonpos rest _ hnot,
          specPartialAmps_cons_of_nonpos rest _ _ hnot]
      · have hpos : 0 < f0 := lt_of_not_le h0
        rw [if_neg h0, foldl_append_pair, ih,
          specPartialFreqs_cons_of_pos rest _ hpos,
          specPartialAmps_cons_of_pos rest _ _ hpos,
          List.append_assoc, List.append_assoc]

/-- Under a valid configuration `_partial_peaks` succeeds and returns the
spec-level partial lists. -/
theorem synthPartialPeaks_ok (fundamentalsHz : List ℚ) (maxPartials : ℤ)
    (rolloff : ℚ) (hmax : 1 ≤ maxPartials) (hroll : 0 < rolloff) :
    synthPartialPeaks fundamentalsHz maxPartials rolloff =
      Except.ok (specPartialFreqs fundamentalsHz maxPartials,
        specPartialAmps fundamentalsHz maxPartials rolloff) := by
  have h1 : ¬maxPartials < 1 := not_lt.mpr hmax
  have h2 : ¬rolloff ≤ 0 := not_le.mpr hroll
  unfold synthPartialPeaks
  rw [if_neg h1, if_neg h2, synthPartialPeaks_foldl_eq]
  simp

/-- The value `_common_partial_count` returns on the non-error path. -/
noncomputable def commonCountPure (freqs : List ℚ) (toleranceCents : ℚ) :
    ℕ :=
  match sortedCents freqs with
  | [] => 0
  | c0 :: restCents =>
      if restCents.isEmpty then 0
      else clusterWalk (toleranceCents : ℝ) restCents c0 1 0

/-- With a positive tolerance `_common_partial_count` succeeds and returns
the clustering-walk value. -/
theorem commonPartialCountOf_ok (freqs : List ℚ) (toleranceCents : ℚ)
    (htol : 0 < toleranceCents) :
    commonPartialCountOf freqs toleranceCents =
      Except.ok (commonCountPure freqs toleranceCents) := by
  have h1 : ¬toleranceCents ≤ 0 := not_le.mpr htol
  unfold commonPartialCountOf commonCountPure
  rw [if_neg h1]
  by_cases hlen : freqs.length < 2
  · rw [if_pos hlen]
    have hle : (sortedCents freqs).length ≤ freqs.length := by
      unfold sortedCents
      rw [List.length_insertionSort, List.length_map]
      exact List.length_filter_le _ _
    match hs : sortedCents freqs with
    | [] => rfl
    | [c0] => rfl
    | c0 :: c1 :: cs =>
        rw [hs] at hle
        simp only [List.length_cons] at hle
        omega
  · rw [if_neg hlen]
    cases sortedCents freqs with
    | nil => rfl
    | cons c0 restCents =>
        by_cases hr : restCents.isEmpty = true <;> simp [hr]

/-- The frame `analyze` emits for a surviving verticality, written with the
spec-level partial lists. -/
noncomputable def mkFrame (cfg : Config) (v : Verticality)
    (durationToNext : ℚ) : SpectralFrame :=
  let funds := vertFundamentals cfg v
  let freqs := specPartialFreqs funds cfg.maxPartials
  let amps := specPartialAmps funds cfg.maxPartials cfg.rolloff
  let cs := centroidAndSpread freqs amps
  SpectralFrame.mk v.offset (v.offset + durationToNext) funds cs.1 cs.2
    freqs.length
    (if cfg.computeCommonPartials then
      some (commonCountPure freqs cfg.commonPartialToleranceCents)
     else none)

/-- Whether the per-verticality loop emits a frame for `v`, and which. -/
noncomputable def processVert (cfg : Config) (v : Verticality) :
    Option SpectralFrame :=
  match v.timeToNextEvent with
  | none => none
  | some durationToNext =>
      if (vertFundamentals cfg v).isEmpty ∧ ¬cfg.includeEmpty then none
      else some (mkFrame cfg v durationToNext)

/-- A configuration whose numeric parameters pass every validation the
loop can reach. -/
def ValidConfig (cfg : Config) : Prop :=
  1 ≤ cfg.maxPartials ∧ 0 < cfg.rolloff ∧
    (cfg.computeCommonPartials = true → 0 < cfg.commonPartialToleranceCents)

/-- Binding a success just applies the continuation. -/
theorem exceptOkBind {e a b : Type} (x : a) (k : a → Except e b) :
    (Except.ok x >>= k) = k x := rfl

/-- Binding a failure short-circuits. -/
theorem exceptErrorBind {e a b : Type} (msg : e) (k : a → Except e b) :
    ((Except.error msg : Except e a) >>= k) = Except.error msg := rfl

/-- Mapping `some` over a success. -/
theorem exceptMapSomeOk {e a : Type} (x : a) :
    Except.map some (Except.ok x : Except e a) = Except.ok (some x) := rfl

/-- Under a valid configuration the loop succeeds and emits exactly the
frames of the surviving verticalities, in order. -/
theorem analyzeVerticalities_ok (cfg : Config) (hcfg : ValidConfig cfg)
    (verts : List Verticality) :
    analyzeVerticalities cfg verts =
      Except.ok (verts.filterMap (processVert cfg)) := by
  obtain ⟨hmax, hroll, htol⟩ := hcfg
  induction verts with
  | nil => rfl
  | cons v rest ih =>
      rw [List.filterMap_cons]
      unfold analyzeVerticalities
      match hdt : v.timeToNextEvent with
      | none => simp only [processVert, hdt]; exact ih
      | some durationToNext =>
          simp only [processVert, hdt]
          by_cases hskip : (vertFundamentals cfg v).isEmpty ∧
              ¬cfg.includeEmpty
          · rw [if_pos hskip, if_pos hskip, ih]
          · rw [if_neg hskip, if_neg hskip]
            rw [synthPartialPeaks_ok _ _ _ hmax hroll, exceptOkBind]
            by_cases hccp : cfg.computeCommonPartials = true
            · rw [if_pos hccp, commonPartialCountOf_ok _ _ (htol hccp),
                exceptMapSomeOk, exceptOkBind, ih, exceptOkBind]
              simp only [mkFrame]
              rw [if_pos hccp]
            · rw [if_neg hccp, exceptOkBind, ih, exceptOkBind]
              simp only [mkFrame]
              rw [if_neg hccp]

/-- Mapping `some` over a failure. -/
theorem exceptMapSomeError {e a : Type} (msg : e) :
    Except.map some (Except.error msg : Except e a) = Except.error msg := rfl

/-- A successful `_partial_peaks` call certifies the configuration and
returns the spec-level lists. -/
theorem synthPartialPeaks_ok_inv (fundamentalsHz : List ℚ)
    (maxPartials : ℤ) (rolloff : ℚ) (pair : List ℚ × List ℝ)
    (h : synthPartialPeaks fundamentalsHz maxPartials rolloff =
      Except.ok pair) :
    1 ≤ maxPartials ∧ 0 < rolloff ∧
      pair = (specPartialFreqs fundamentalsHz maxPartials,
        specPartialAmps fundamentalsHz maxPartials rolloff) := by
  by_cases h1 : maxPartials < 1
  · unfold synthPartialPeaks at h
    rw [if_pos h1] at h
    exact absurd h (by simp)
  · by_cases h2 : rolloff ≤ 0
    · unfold synthPartialPeaks at h
      rw [if_neg h1, if_pos h2] at h
      exact absurd h (by simp)
    · refine ⟨not_lt.mp h1, not_le.mp h2, ?_⟩
      rw [synthPartialPeaks_ok _ _ _ (not_lt.mp h1) (not_le.mp h2)] at h
      exact (Except.ok.inj h).symm

/-- A successful `_common_partial_count` call certifies a positive
tolerance. -/
theorem commonPartialCountOf_pos_inv (freqs : List ℚ) (toleranceCents : ℚ)
    (n : ℕ) (h : commonPartialCountOf freqs toleranceCents = Except.ok n) :
    0 < toleranceCents := by
  by_cases h0 : toleranceCents ≤ 0
  · unfold commonPartialCountOf at h
    rw [if_pos h0] at h
    exact absurd h (by simp)
  · exact not_le.mp h0

/-- If the loop emitted at least one frame, the numeric configuration
passed every validation it can reach. -/
theorem validConfig_of_ok_mem (cfg : Config) (verts : List Verticality)
    (frames : List SpectralFrame)
    (h : analyzeVerticalities cfg verts = Except.ok frames)
    (f : SpectralFrame) (hf : f ∈ frames) : ValidConfig cfg := by
  induction verts generalizing frames with
  | nil =>
      unfold analyzeVerticalities at h
      injection h with h'
      subst h'
      cases hf
  | cons v rest ih =>
      unfold analyzeVerticalities at h
      cases hdt : v.timeToNextEvent with
      | none =>
          simp only [hdt] at h
          exact ih frames h hf
      | some durationToNext =>
          simp only [hdt] at h
          by_cases hskip : (vertFundamentals cfg v).isEmpty = true ∧
              ¬cfg.includeEmpty = true
          · rw [if_pos hskip] at h
            exact ih frames h hf
          · rw [if_neg hskip] at h
            cases hp : synthPartialPeaks (vertFundamentals cfg v)
                cfg.maxPartials cfg.rolloff with
            | error msg =>
                rw [hp, exceptErrorBind] at h
                exact absurd h (by simp)
            | ok pair =>
                obtain ⟨hmax, hroll, _⟩ :=
                  synthPartialPeaks_ok_inv _ _ _ _ hp
                rw [hp, exceptOkBind] at h
                by_cases hccp : cfg.computeCommonPartials = true
                · rw [if_pos hccp] at h
                  cases hc : commonPartialCountOf pair.1
                      cfg.commonPartialToleranceCents with
                  | error msg =>
                      rw [hc, exceptMapSomeError, exceptErrorBind] at h
                      exact absurd h (by simp)
                  | ok n =>
                      exact ⟨hmax, hroll,
                        fun _ => commonPartialCountOf_pos_inv _ _ _ hc⟩
                · exact ⟨hmax, hroll, fun hc => absurd hc hccp⟩

/-- Every emitted frame is the `mkFrame` of a surviving verticality of the
input sequence. -/
theorem analyzeVerticalities_ok_mem (cfg : Config) (verts : List Verticality)
    (frames : List SpectralFrame)
    (h : analyzeVerticalities cfg verts = Except.ok frames)
    (f : SpectralFrame) (hf : f ∈ frames) :
    ∃ v ∈ verts, ∃ durationToNext, v.timeToNextEvent = some durationToNext ∧
      ¬((vertFundamentals cfg v).isEmpty = true ∧
          ¬cfg.includeEmpty = true) ∧
      f = mkFrame cfg v durationToNext := by
  have hv : ValidConfig cfg := validConfig_of_ok_mem cfg verts frames h f hf
  rw [analyzeVerticalities_ok cfg hv verts] at h
  injection h with h'
  subst h'
  rcases List.mem_filterMap.mp hf with ⟨v, hvmem, hpv⟩
  cases hdt : v.timeToNextEvent with
  | none =>
      unfold processVert at hpv
      simp only [hdt] at hpv
      exact Option.noConfusion hpv
  | some durationToNext =>
      unfold processVert at hpv
      simp only [hdt] at hpv
      by_cases hskip : (vertFundamentals cfg v).isEmpty = true ∧
          ¬cfg.includeEmpty = true
      · rw [if_pos hskip] at hpv
        cases hpv
      · rw [if_neg hskip] at hpv
        injection hpv with hpv'
        exact ⟨v, hvmem, durationToNext, hdt, hskip, hpv'.symm⟩

/-- Every entry of `vertFundamentals` is positive. -/
theorem vertFundamentals_pos (cfg : Config) (v : Verticality) :
    ∀ x ∈ vertFundamentals cfg v, 0 < x := by
  intro x hx
  unfold vertFundamentals at hx
  rcases List.mem_map.mp hx with ⟨p, hp, hpx⟩
  rcases List.mem_filter.mp hp with ⟨_, hppos⟩
  rw [← hpx]
  exact of_decide_eq_true hppos

/-- An emitted frame keeps the offset of its verticality. -/
theorem processVert_offset (cfg : Config) (v : Verticality)
    (f : SpectralFrame) (hpv : processVert cfg v = some f) :
    f.offset = v.offset := by
  cases hdt : v.timeToNextEvent with
  | none =>
      unfold processVert at hpv
      simp only [hdt] at hpv
      exact Option.noConfusion hpv
  | some durationToNext =>
      unfold processVert at hpv
      simp only [hdt] at hpv
      by_cases hskip : (vertFundamentals cfg v).isEmpty = true ∧
          ¬cfg.includeEmpty = true
      · rw [if_pos hskip] at hpv
        cases hpv
      · rw [if_neg hskip] at hpv
        injection hpv with hpv'
        rw [← hpv']
        rfl

/-- The emitted offsets are a subsequence of the verticality offsets. -/
theorem filterMap_offsets_sublist (cfg : Config) (verts : List Verticality) :
    ((verts.filterMap (processVert cfg)).map (fun f => f.offset)).Sublist
      (verts.map (fun v => v.offset)) := by
  induction verts with
  | nil => simp
  | cons v rest ih =>
      rw [List.filterMap_cons]
      cases hpv : processVert cfg v with
      | none =>
          rw [List.map_cons]
          exact ih.cons _
      | some f =>
          rw [List.map_cons, List.map_cons, processVert_offset cfg v f hpv]
          exact ih.cons₂ _

/-- `_partial_peaks` rejects `maxPartials < 1`. -/
theorem synthPartialPeaks_err_max (fundamentalsHz : List ℚ)
    (maxPartials : ℤ) (rolloff : ℚ) (h : maxPartials < 1) :
    synthPartialPeaks fundamentalsHz maxPartials rolloff =
      Except.error "maxPartials must be >= 1" := by
  unfold synthPartialPeaks
  rw [if_pos h]

/-- `_partial_peaks` rejects `rolloff <= 0`. -/
theorem synthPartialPeaks_err_roll (fundamentalsHz : List ℚ)
    (maxPartials : ℤ) (rolloff : ℚ) (h1 : ¬maxPartials < 1)
    (h2 : rolloff ≤ 0) :
    synthPartialPeaks fundamentalsHz maxPartials rolloff =
      Except.error "rolloff must be > 0" := by
  unfold synthPartialPeaks
  rw [if_neg h1, if_pos h2]

/-- `_common_partial_count` rejects `toleranceCents <= 0`, whatever the
frequency list. -/
theorem commonPartialCountOf_err (freqs : List ℚ) (toleranceCents : ℚ)
    (h : toleranceCents ≤ 0) :
    commonPartialCountOf freqs toleranceCents =
      Except.error "toleranceCents must be > 0" := by
  unfold commonPartialCountOf
  rw [if_pos h]

/-- A verticality that passes both per-frame skip checks: it has a time to
the next event, and its fundamentals are nonempty or `includeEmpty` is
set. -/
def SurvivesCheck (cfg : Config) (v : Verticality) : Prop :=
  v.timeToNextEvent ≠ none ∧
    (¬(vertFundamentals cfg v).isEmpty = true ∨ cfg.includeEmpty = true)

/-- Claim C1 (amended): parameter validation happens at the first
verticality that passes the skip checks.  If some verticality survives the
skip checks and `maxPartials < 1`, or `rolloff <= 0`, or common-partial
computation is enabled with `commonPartialToleranceCents <= 0`, then
`analyze` raises a `ValueError` and emits no frame; with no surviving
verticality it instead returns the empty list without validating. -/
theorem spectral_c1_amended (cfg : Config) (verts : List Verticality)
    (hsurv : ∃ v ∈ verts, SurvivesCheck cfg v)
    (hbad : cfg.maxPartials < 1 ∨ cfg.rolloff ≤ 0 ∨
      (cfg.computeCommonPartials = true ∧
        cfg.commonPartialToleranceCents ≤ 0)) :
    ∃ msg, analyzeVerticalities cfg verts = Except.error msg := by
  induction verts with
  | nil =>
      rcases hsurv with ⟨v, hv, _⟩
      cases hv
  | cons v rest ih =>
      cases hdt : v.timeToNextEvent with
      | none =>
          unfold analyzeVerticalities
          simp only [hdt]
          apply ih
          rcases hsurv with ⟨v0, hv0, hs0⟩
          rcases List.mem_cons.mp hv0 with hveq | hvrest
          · subst hveq
            exact absurd hdt hs0.1
          · exact ⟨v0, hvrest, hs0⟩
      | some durationToNext =>
          by_cases hskip : (vertFundamentals cfg v).isEmpty = true ∧
              ¬cfg.includeEmpty = true
          · unfold analyzeVerticalities
            simp only [hdt]
            rw [if_pos hskip]
            apply ih
            rcases hsurv with ⟨v0, hv0, hs0⟩
            rcases List.mem_cons.mp hv0 with hveq | hvrest
            · subst hveq
              rcases hs0.2 with hne | hinc
              · exact absurd hskip.1 hne
              · exact absurd hinc hskip.2
            · exact ⟨v0, hvrest, hs0⟩
          · unfold analyzeVerticalities
            simp only [hdt]
            rw [if_neg hskip]
            by_cases hm : cfg.maxPartials < 1
            · rw [synthPartialPeaks_err_max _ _ _ hm, exceptErrorBind]
              exact ⟨_, rfl⟩
            · by_cases hr : cfg.rolloff ≤ 0
              · rw [synthPartialPeaks_err_roll _ _ _ hm hr, exceptErrorBind]
                exact ⟨_, rfl⟩
              · have htol : cfg.computeCommonPartials = true ∧
                    cfg.commonPartialToleranceCents ≤ 0 := by
                  rcases hbad with hb | hb | hb
                  · exact absurd hb hm
                  · exact absurd hb hr
                  · exact hb
                rw [synthPartialPeaks_ok _ _ _ (not_lt.mp hm) (not_le.mp hr),
                  exceptOkBind, if_pos htol.1,
                  commonPartialCountOf_err _ _ htol.2, exceptMapSomeError,
                  exceptErrorBind]
                exact ⟨_, rfl⟩

/-- The verticality-free collaborator used to refute claim C1. -/
def cexCollabC1 : Collaborator :=
  Collaborator.mk (fun s => s) (fun _ => [])

/-- A trivial score stream already at sounding pitch. -/
def cexStreamC1 : MStream := MStream.mk SPFlag.atTrue []

/-- An invalid configuration: `maxPartials = 0`. -/
def cexConfigC1 : Config := Config.mk true true false 0 1 true 10

/-- Claim C1 as stated is false: with `maxPartials = 0 < 1` and a score
yielding no processable verticality, `analyze` returns the empty list
instead of failing. -/
theorem spectral_c1_counterexample :
    cexConfigC1.maxPartials < 1 ∧
      analyze cexCollabC1 cexStreamC1 cexConfigC1 = Except.ok [] :=
  ⟨by decide, rfl⟩

/-- A verticality that passes the skip checks: one pitch, next event one
quarter length later. -/
def c1Vert : Verticality :=
  Verticality.mk 0 (some 1) [MTimespan.mk (some [MPitch.mk "A4" 440])]

/-- Witness for the amended claim C1: on one surviving verticality the
invalid configuration makes the loop fail. -/
theorem spectral_c1_witness :
    ∃ msg, analyzeVerticalities cexConfigC1 [c1Vert] = Except.error msg :=
  spectral_c1_amended cexConfigC1 [c1Vert]
    ⟨c1Vert, List.mem_singleton.mpr rfl, by decide, Or.inl (by decide)⟩
    (Or.inl (by decide))

/-- Claim C10: validation is lazy.  (a) With `includeEmpty` false, a
verticality sequence in which every verticality is skipped (no time to next
event, or empty fundamentals) makes `analyze` return the empty list without
raising, for arbitrary (also invalid) `maxPartials`, `rolloff` and
`commonPartialToleranceCents`.  (b) With `computeCommonPartials` false the
tolerance is never validated: `analyze` succeeds for any tolerance as long
as `maxPartials` and `rolloff` are valid. -/
theorem spectral_c10 (cfg : Config) (verts : List Verticality) :
    (cfg.includeEmpty = false →
      (∀ v ∈ verts, v.timeToNextEvent = none ∨
        (vertFundamentals cfg v).isEmpty = true) →
      analyzeVerticalities cfg verts = Except.ok []) ∧
    (cfg.computeCommonPartials = false → 1 ≤ cfg.maxPartials →
      0 < cfg.rolloff →
      ∃ frames, analyzeVerticalities cfg verts = Except.ok frames) := by
  constructor
  · intro hinc hall
    induction verts with
    | nil => rfl
    | cons v rest ih =>
        have hrest : analyzeVerticalities cfg rest = Except.ok [] :=
          ih (fun v0 hv0 => hall v0 (List.mem_cons_of_mem _ hv0))
        cases hdt : v.timeToNextEvent with
        | none =>
            unfold analyzeVerticalities
            simp only [hdt]
            exact hrest
        | some durationToNext =>
            rcases hall v (List.mem_cons_self _ _) with hnone | hempty
            · rw [hdt] at hnone
              exact Option.noConfusion hnone
            · unfold analyzeVerticalities
              simp only [hdt]
              rw [if_pos ⟨hempty, by rw [hinc]; exact Bool.false_ne_true⟩]
              exact hrest
  · intro hccp hmax hroll
    exact ⟨_, analyzeVerticalities_ok cfg
      ⟨hmax, hroll, fun hc => absurd hc (by rw [hccp]; exact
        Bool.false_ne_true)⟩ verts⟩

/-- A verticality holding only a pitchless timespan (a rest). -/
def c10Vert : Verticality := Verticality.mk 0 (some 1) [MTimespan.mk none]

/-- An invalid configuration (`maxPartials = 0`, `rolloff = 0`,
`commonPartialToleranceCents = -1`) that claim C10 says is never noticed on
an all-rest score. -/
def cfgLazyC10 : Config := Config.mk true true false 0 0 true (-1)

/-- A configuration with common-partial computation disabled and a negative
tolerance that is never validated. -/
def cfgNoCommonC10 : Config := Config.mk true true false 1 1 false (-1)

/-- Witness for claim C10 at concrete inputs. -/
theorem spectral_c10_witness :
    analyzeVerticalities cfgLazyC10 [c10Vert] = Except.ok [] ∧
      ∃ frames, analyzeVerticalities cfgNoCommonC10 [c10Vert] =
        Except.ok frames :=
  ⟨(spectral_c10 cfgLazyC10 [c10Vert]).1 rfl
      (fun v hv => by
        rw [List.mem_singleton.mp hv]
        exact Or.inr (by decide)),
    (spectral_c10 cfgNoCommonC10 [c10Vert]).2 rfl (by decide) (by decide)⟩

/-- Claim C7: a verticality whose collected fundamental set is empty is
skipped when `includeEmpty` is false; when `includeEmpty` is true (and the
verticality has a time to the next event, under a valid configuration) a
frame is emitted for it with absent centroid and spread and zero
partials. -/
theorem spectral_c7 (cfg : Config) (v : Verticality)
    (rest : List Verticality)
    (hempty : (vertFundamentals cfg v).isEmpty = true) :
    (cfg.includeEmpty = false →
      analyzeVerticalities cfg (v :: rest) = analyzeVerticalities cfg rest) ∧
    (cfg.includeEmpty = true →
      ∀ durationToNext, v.timeToNextEvent = some durationToNext →
      ValidConfig cfg →
      analyzeVerticalities cfg (v :: rest) =
        Except.map (fun frames => mkFrame cfg v durationToNext :: frames)
          (analyzeVerticalities cfg rest) ∧
      (mkFrame cfg v durationToNext).centroidHz = none ∧
      (mkFrame cfg v durationToNext).spreadHz = none ∧
      (mkFrame cfg v durationToNext).totalPartials = 0) := by
  have hnil : vertFundamentals cfg v = [] := List.isEmpty_iff.mp hempty
  constructor
  · intro hinc
    cases hdt : v.timeToNextEvent with
    | none =>
        conv_lhs => unfold analyzeVerticalities
        simp only [hdt]
    | some durationToNext =>
        conv_lhs => unfold analyzeVerticalities
        simp only [hdt]
        rw [if_pos ⟨hempty, by rw [hinc]; exact Bool.false_ne_true⟩]
  · intro hinc durationToNext hdt hvalid
    have hpv : processVert cfg v = some (mkFrame cfg v durationToNext) := by
      unfold processVert
      simp only [hdt]
      rw [if_neg (fun hk => by
        have := hk.2
        rw [hinc] at this
        exact this rfl)]
    refine ⟨?_, ?_, ?_, ?_⟩
    · rw [analyzeVerticalities_ok cfg hvalid (v :: rest),
        analyzeVerticalities_ok cfg hvalid rest, List.filterMap_cons, hpv]
      rfl
    · simp only [mkFrame, hnil]
      rfl
    · simp only [mkFrame, hnil]
      rfl
    · simp only [mkFrame, hnil]
      rfl

/-- Configuration with `includeEmpty` and common-partial counting on. -/
def cfgEmptyC7 : Config := Config.mk true true true 1 1 true 10

/-- A rest-only verticality with a next event. -/
def c7Vert : Verticality := Verticality.mk 0 (some 1) []

/-- Witness for claim C7: the empty-fundamentals frame is emitted with
absent centroid and spread and zero partials. -/
theorem spectral_c7_witness :
    analyzeVerticalities cfgEmptyC7 [c7Vert] =
      Except.map (fun frames => mkFrame cfgEmptyC7 c7Vert 1 :: frames)
        (analyzeVerticalities cfgEmptyC7 []) ∧
    (mkFrame cfgEmptyC7 c7Vert 1).centroidHz = none ∧
    (mkFrame cfgEmptyC7 c7Vert 1).spreadHz = none ∧
    (mkFrame cfgEmptyC7 c7Vert 1).totalPartials = 0 :=
  (spectral_c7 cfgEmptyC7 c7Vert [] (by decide)).2 rfl 1 rfl
    ⟨by decide, by decide, fun _ => by decide⟩

/-- The condition under which the source transposes: the first part-like
sub-stream (if any) has `atSoundingPitch` exactly `False`, or the stream
itself does. -/
def ShouldTranspose (s : MStream) : Prop :=
  (∃ firstPartLike, s.partLikeStreams.head? = some firstPartLike ∧
    firstPartLike.atSoundingPitch = SPFlag.atFalse) ∨
  s.atSoundingPitch = SPFlag.atFalse

/-- Claim C5 (amended): with `toSoundingPitch` true, `analyze` derives its
verticalities from the stream returned by the sounding-pitch step, and that
step transposes exactly when the first part-like sub-stream, or the stream
itself, has `atSoundingPitch` set to `False`; other sub-parts are not
consulted.  With `toSoundingPitch` false the stream is left unchanged. -/
theorem spectral_c5_amended (transpose : MStream → MStream) (s : MStream) :
    (∀ collab : Collaborator, ∀ cfg : Config,
      analyze collab s cfg = analyzeVerticalities cfg
        (collab.verticalitiesOf
          (applySoundingPitch collab.transpose s cfg.toSoundingPitch))) ∧
    (ShouldTranspose s → applySoundingPitch transpose s true = transpose s) ∧
    (¬ShouldTranspose s → applySoundingPitch transpose s true = s) ∧
    applySoundingPitch transpose s false = s := by
  refine ⟨fun collab cfg => rfl, ?_, ?_, rfl⟩
  · intro hst
    cases hs : s.partLikeStreams with
    | nil =>
        rcases hst with ⟨fp, hfp, _⟩ | hflag
        · rw [hs] at hfp
          exact Option.noConfusion hfp
        · simp [applySoundingPitch, MStream.hasPartLikeStreams, hs, hflag]
    | cons p ps =>
        by_cases hp0 : p.atSoundingPitch = SPFlag.atFalse
        · simp [applySoundingPitch, MStream.hasPartLikeStreams, hs, hp0]
        · rcases hst with ⟨fp, hfp, hfpf⟩ | hflag
          · rw [hs, List.head?_cons] at hfp
            rw [Option.some.inj hfp] at hp0
            exact absurd hfpf hp0
          · simp [applySoundingPitch, MStream.hasPartLikeStreams, hs, hp0,
              hflag]
  · intro hst
    have hflag : ¬s.atSoundingPitch = SPFlag.atFalse :=
      fun h => hst (Or.inr h)
    cases hs : s.partLikeStreams with
    | nil =>
        simp [applySoundingPitch, MStream.hasPartLikeStreams, hs, hflag]
    | cons p ps =>
        have hp0 : ¬p.atSoundingPitch = SPFlag.atFalse := fun h =>
          hst (Or.inl ⟨p, by rw [hs, List.head?_cons], h⟩)
        simp [applySoundingPitch, MStream.hasPartLikeStreams, hs, hp0, hflag]

/-- A transposition that rewrites any stream to a fixed distinct stream. -/
def cexTransC5 : MStream → MStream := fun _ => MStream.mk SPFlag.atTrue []

/-- First part-like sub-stream at sounding pitch, second one not. -/
def cexStreamC5 : MStream :=
  MStream.mk SPFlag.atTrue
    [PartStream.mk SPFlag.atTrue, PartStream.mk SPFlag.atFalse]

/-- A collaborator that reveals which stream reaches the verticality
derivation: the untransposed stream yields no verticalities, any other
stream yields one. -/
def cexCollabC5 : Collaborator :=
  Collaborator.mk cexTransC5 (fun s2 =>
    if s2.partLikeStreams.isEmpty then [Verticality.mk 0 (some 1) []]
    else [])

/-- A valid configuration with `toSoundingPitch` and `includeEmpty` on. -/
def cexConfigC5 : Config := Config.mk true true true 1 1 true 10

/-- Claim C5 as stated is false: a sub-part (the second one) is not at
sounding pitch, yet `analyze` leaves the score untransposed, as the empty
frame list shows, and transposing would have produced a different
stream. -/
theorem spectral_c5_counterexample :
    (∃ p ∈ cexStreamC5.partLikeStreams,
      p.atSoundingPitch = SPFlag.atFalse) ∧
    applySoundingPitch cexTransC5 cexStreamC5 true = cexStreamC5 ∧
    cexTransC5 cexStreamC5 ≠ cexStreamC5 ∧
    analyze cexCollabC5 cexStreamC5 cexConfigC5 = Except.ok [] ∧
    analyzeVerticalities cexConfigC5
        (cexCollabC5.verticalitiesOf (cexCollabC5.transpose cexStreamC5)) ≠
      Except.ok [] := by
  refine ⟨⟨PartStream.mk SPFlag.atFalse, by decide, rfl⟩, rfl, by decide,
    rfl, ?_⟩
  intro h
  have hverts : cexCollabC5.verticalitiesOf
      (cexCollabC5.transpose cexStreamC5) =
      [Verticality.mk 0 (some 1) []] := rfl
  rw [hverts, analyzeVerticalities_ok cexConfigC5
    ⟨by decide, by decide, fun _ => by decide⟩] at h
  have hpv : processVert cexConfigC5 (Verticality.mk 0 (some 1) []) =
      some (mkFrame cexConfigC5 (Verticality.mk 0 (some 1) []) 1) := by
    unfold processVert
    exact if_neg (fun hk => hk.2 rfl)
  have h2 := Except.ok.inj h
  simp [hpv] at h2

/-- A stream whose own flag says it is not at sounding pitch. -/
def c5WitnessStream : MStream := MStream.mk SPFlag.atFalse []

/-- Witness for the amended claim C5: the not-at-sounding-pitch stream is
transposed. -/
theorem spectral_c5_witness :
    applySoundingPitch cexTransC5 c5WitnessStream true =
      cexTransC5 c5WitnessStream :=
  (spectral_c5_amended cexTransC5 c5WitnessStream).2.1 (Or.inr rfl)

/-- Spec-level deduplication by spelling: keep each pitch whose
`nameWithOctave` key has not occurred earlier, preserving first-seen
order. -/
def specDedupBySpelling : List MPitch → List MPitch
  | [] => []
  | p :: rest =>
      p :: specDedupBySpelling
        (rest.filter (fun q => q.nameWithOctave != p.nameWithOctave))
termination_by l => l.length
decreasing_by
simp only [List.length_cons]
exact Nat.lt_succ_of_le (List.length_filter_le _ _)

/-- The deduplicated list is a subsequence of the input. -/
theorem specDedupBySpelling_sublist (l : List MPitch) :
    (specDedupBySpelling l).Sublist l := by
  induction l using specDedupBySpelling.induct with
  | case1 => simp [specDedupBySpelling]
  | case2 p rest ih =>
      rw [specDedupBySpelling]
      exact (ih.trans (List.filter_sublist _)).cons₂ _

/-- No two entries of the deduplicated list share a spelling key. -/
theorem specDedupBySpelling_pairwise (l : List MPitch) :
    (specDedupBySpelling l).Pairwise
      (fun p q => p.nameWithOctave ≠ q.nameWithOctave) := by
  induction l using specDedupBySpelling.induct with
  | case1 => simp [specDedupBySpelling]
  | case2 p rest ih =>
      rw [specDedupBySpelling]
      refine List.Pairwise.cons ?_ ih
      intro q hq
      have hqf := (specDedupBySpelling_sublist _).mem hq
      have := List.mem_filter.mp hqf
      intro hk
      rw [hk] at this
      simp at this

/-- A false boolean is not true. -/
theorem boolNotTrue {b : Bool} (h : b = false) : ¬b = true := by
  rw [h]
  exact Bool.false_ne_true

/-- Searching a filtered list finds the same first match when the filter
keeps every element the search predicate accepts. -/
theorem find?_filter_of_imp {α : Type} (l : List α) (pd pf : α → Bool)
    (h : ∀ x ∈ l, pd x = true → pf x = true) :
    List.find? pd (l.filter pf) = List.find? pd l := by
  induction l with
  | nil => rfl
  | cons a rest ih =>
      have ih2 := ih (fun x hx => h x (List.mem_cons_of_mem _ hx))
      cases hpf : pf a with
      | true =>
          rw [List.filter_cons_of_pos hpf]
          cases hpd : pd a with
          | true =>
              rw [List.find?_cons_of_pos _ hpd, List.find?_cons_of_pos _ hpd]
          | false =>
              rw [List.find?_cons_of_neg _ (boolNotTrue hpd),
                List.find?_cons_of_neg _ (boolNotTrue hpd), ih2]
      | false =>
          have hpd : pd a = false := by
            cases hpd : pd a with
            | false => rfl
            | true => rw [h a (List.mem_cons_self _ _) hpd] at hpf; cases hpf
          rw [List.filter_cons_of_neg (boolNotTrue hpf),
            List.find?_cons_of_neg _ (boolNotTrue hpd), ih2]

/-- Every entry of the deduplicated list is the first input entry carrying
its spelling key. -/
theorem specDedupBySpelling_find (l : List MPitch) :
    ∀ p ∈ specDedupBySpelling l,
      l.find? (fun q => q.nameWithOctave == p.nameWithOctave) = some p := by
  induction l using specDedupBySpelling.induct with
  | case1 => simp [specDedupBySpelling]
  | case2 p rest ih =>
      rw [specDedupBySpelling]
      intro x hx
      rcases List.mem_cons.mp hx with hxp | hxtail
      · subst hxp
        exact List.find?_cons_of_pos _ (by simp)
      · have hxf := (specDedupBySpelling_sublist _).mem hxtail
        have hxne : (x.nameWithOctave == p.nameWithOctave) = false := by
          have := (List.mem_filter.mp hxf).2
          simpa using this
        have hne : (p.nameWithOctave == x.nameWithOctave) = false :=
          beq_eq_false_iff_ne.mpr
            (fun hk => (beq_eq_false_iff_ne.mp hxne) hk.symm)
        rw [@List.find?_cons_of_neg MPitch
            (fun q => q.nameWithOctave == x.nameWithOctave) p rest
            (boolNotTrue hne),
          ← find?_filter_of_imp rest
            (fun q => q.nameWithOctave == x.nameWithOctave)
            (fun q => q.nameWithOctave != p.nameWithOctave)
            (fun y _ hy => by
              simp only [beq_iff_eq] at hy
              simp only [bne_iff_ne, hy]
              simp only [beq_eq_false_iff_ne] at hxne
              exact hxne)]
        exact ih x hxtail

/-- A spelling key occurs in the deduplicated list iff it occurs in the
input. -/
theorem specDedupBySpelling_keys (l : List MPitch) (k : String) :
    (∃ p ∈ l, p.nameWithOctave = k) ↔
      ∃ p ∈ specDedupBySpelling l, p.nameWithOctave = k := by
  induction l using specDedupBySpelling.induct with
  | case1 => simp [specDedupBySpelling]
  | case2 p rest ih =>
      rw [specDedupBySpelling]
      constructor
      · rintro ⟨x, hx, hxk⟩
        rcases List.mem_cons.mp hx with hxp | hxrest
        · exact ⟨p, List.mem_cons_self _ _, by rw [← hxp, hxk]⟩
        · by_cases hpk : p.nameWithOctave = k
          · exact ⟨p, List.mem_cons_self _ _, hpk⟩
          · have hxf : x ∈ rest.filter
                (fun q => q.nameWithOctave != p.nameWithOctave) :=
              List.mem_filter.mpr ⟨hxrest, by
                simp only [bne_iff_ne, hxk]
                exact fun hk => hpk hk.symm⟩
            rcases ih.mp ⟨x, hxf, hxk⟩ with ⟨y, hy, hyk⟩
            exact ⟨y, List.mem_cons_of_mem _ hy, hyk⟩
      · rintro ⟨x, hx, hxk⟩
        rcases List.mem_cons.mp hx with hxp | hxtail
        · exact ⟨p, List.mem_cons_self _ _, by rw [← hxp, hxk]⟩
        · rcases ih.mpr ⟨x, hxtail, hxk⟩ with ⟨y, hy, hyk⟩
          exact ⟨y, List.mem_cons_of_mem _
            ((List.filter_sublist _).mem hy), hyk⟩

/-- The seen-set loop of the source equals the spec-level first-occurrence
deduplication, relative to the keys already seen. -/
theorem dedupLoop_eq_spec (l : List MPitch) (seen : List String) :
    dedupLoop seen l = specDedupBySpelling
      (l.filter (fun p => decide (p.nameWithOctave ∉ seen))) := by
  induction l generalizing seen with
  | nil => simp [dedupLoop, specDedupBySpelling]
  | cons p rest ih =>
      unfold dedupLoop
      by_cases hmem : p.nameWithOctave ∈ seen
      · rw [if_pos hmem, List.filter_cons_of_neg (by simpa using hmem)]
        exact ih seen
      · rw [if_neg hmem, List.filter_cons_of_pos (by simpa using hmem)]
        rw [specDedupBySpelling, ih (p.nameWithOctave :: seen),
          List.filter_filter]
        congr 1
        congr 1
        apply List.filter_congr
        intro x _
        by_cases hxp : x.nameWithOctave = p.nameWithOctave <;>
          by_cases hxs : x.nameWithOctave ∈ seen <;>
            simp [hxp, hxs]

/-- Claim C8: with `keepDuplicates` false the frame's fundamental pitches
are the collected pitches deduplicated by the spelling key
(`nameWithOctave`): the result keeps, in first-seen order, exactly the
first occurrence of each spelling; every spelling present in the input is
still present, so enharmonically equivalent pitches with different
spellings remain separate. -/
theorem spectral_c8 (v : Verticality) :
    verticalityFundamentalPitches v false =
      specDedupBySpelling (collectVertPitches v) ∧
    (verticalityFundamentalPitches v false).Sublist (collectVertPitches v) ∧
    (verticalityFundamentalPitches v false).Pairwise
      (fun p q => p.nameWithOctave ≠ q.nameWithOctave) ∧
    (∀ p ∈ verticalityFundamentalPitches v false,
      (collectVertPitches v).find?
        (fun q => q.nameWithOctave == p.nameWithOctave) = some p) ∧
    (∀ k : String, (∃ p ∈ collectVertPitches v, p.nameWithOctave = k) ↔
      ∃ p ∈ verticalityFundamentalPitches v false,
        p.nameWithOctave = k) := by
  have hmain : verticalityFundamentalPitches v false =
      specDedupBySpelling (collectVertPitches v) := by
    unfold verticalityFundamentalPitches
    rw [if_neg Bool.false_ne_true, dedupLoop_eq_spec]
    congr 1
    apply List.filter_eq_self.mpr
    intro a _
    simp
  refine ⟨hmain, ?_, ?_, ?_, ?_⟩
  · rw [hmain]
    exact specDedupBySpelling_sublist _
  · rw [hmain]
    exact specDedupBySpelling_pairwise _
  · rw [hmain]
    exact specDedupBySpelling_find _
  · intro k
    rw [hmain]
    exact specDedupBySpelling_keys _ k

/-- C quarter-sharp spelled as C and as D-double-flat: enharmonically equal
frequencies, distinct spellings. -/
def c8Vert : Verticality :=
  Verticality.mk 0 (some 1)
    [MTimespan.mk (some [MPitch.mk "C4" 261, MPitch.mk "D--4" 261,
      MPitch.mk "C4" 261])]

/-- Witness for claim C8: the duplicate `C4` collapses to its first
occurrence while the enharmonic `D--4` stays a separate fundamental. -/
theorem spectral_c8_witness :
    verticalityFundamentalPitches c8Vert false =
      [MPitch.mk "C4" 261, MPitch.mk "D--4" 261] ∧
    (MPitch.mk "C4" 261).frequency = (MPitch.mk "D--4" 261).frequency := by
  refine ⟨?_, rfl⟩
  rw [(spectral_c8 c8Vert).1]
  simp [collectVertPitches, c8Vert, specDedupBySpelling]

/-- With all fundamentals positive, the number of partials is
`len(fundamentalsHz) * maxPartials`. -/
theorem specPartialFreqs_length (fundamentalsHz : List ℚ) (maxPartials : ℤ)
    (hpos : ∀ f0 ∈ fundamentalsHz, 0 < f0) :
    (specPartialFreqs fundamentalsHz maxPartials).length =
      fundamentalsHz.length * maxPartials.toNat := by
  unfold specPartialFreqs
  rw [List.filter_eq_self.mpr (fun a ha => by simpa using hpos a ha),
    List.length_flatMap]
  have : (List.map
      (List.length ∘ fun f0 =>
        (List.range' 1 maxPartials.toNat).map (fun (n : ℕ) => f0 * (n : ℚ)))
      fundamentalsHz) =
      List.replicate fundamentalsHz.length maxPartials.toNat := by
    rw [← List.map_const]
    apply List.map_congr_left
    intro a _
    simp [List.length_range']
  rw [this, List.sum_replicate, smul_eq_mul]

/-- Claim C2: under a valid configuration, `_partial_peaks` returns exactly
one partial of frequency `f0 * n` and amplitude `1 / n ^ rolloff` per
positive fundamental `f0` and harmonic index `n` in `1..maxPartials`
(non-positive fundamentals skipped), and every emitted frame has
`totalPartials = len(fundamentalsHz) * maxPartials`. -/
theorem spectral_c2 (fundamentalsHz : List ℚ) (maxPartials : ℤ)
    (rolloff : ℚ) (hmax : 1 ≤ maxPartials) (hroll : 0 < rolloff) :
    synthPartialPeaks fundamentalsHz maxPartials rolloff =
      Except.ok (specPartialFreqs fundamentalsHz maxPartials,
        specPartialAmps fundamentalsHz maxPartials rolloff) ∧
    ((∀ f0 ∈ fundamentalsHz, 0 < f0) →
      (specPartialFreqs fundamentalsHz maxPartials).length =
        fundamentalsHz.length * maxPartials.toNat) ∧
    (∀ cfg : Config, ∀ verts : List Verticality,
      ∀ frames : List SpectralFrame,
      analyzeVerticalities cfg verts = Except.ok frames →
      ∀ fr ∈ frames, fr.totalPartials =
        fr.fundamentalsHz.length * cfg.maxPartials.toNat) := by
  refine ⟨synthPartialPeaks_ok _ _ _ hmax hroll,
    specPartialFreqs_length _ _, ?_⟩
  intro cfg verts frames h fr hfr
  rcases analyzeVerticalities_ok_mem cfg verts frames h fr hfr with
    ⟨v, _, durationToNext, _, _, hfr_eq⟩
  rw [hfr_eq]
  show (specPartialFreqs (vertFundamentals cfg v) cfg.maxPartials).length =
    (vertFundamentals cfg v).length * cfg.maxPartials.toNat
  exact specPartialFreqs_length _ _ (vertFundamentals_pos cfg v)

/-- Witness for claim C2 on two fundamentals and two partials each. -/
theorem spectral_c2_witness :
    synthPartialPeaks [2, 3] 2 1 =
      Except.ok (specPartialFreqs [2, 3] 2, specPartialAmps [2, 3] 2 1) ∧
    specPartialFreqs [2, 3] 2 = [2, 4, 3, 6] ∧
    (specPartialFreqs [2, 3] 2).length = 2 * (2 : ℤ).toNat :=
  ⟨(spectral_c2 [2, 3] 2 1 (by decide) (by decide)).1,
    by norm_num [specPartialFreqs, List.range'],
    (spectral_c2 [2, 3] 2 1 (by decide) (by decide)).2.1
      (by intro f0 hf; fin_cases hf <;> norm_num)⟩

/-- Every spec-level amplitude `1 / n ^ rolloff` is nonnegative. -/
theorem specPartialAmps_nonneg (fundamentalsHz : List ℚ) (maxPartials : ℤ)
    (rolloff : ℚ) :
    ∀ a ∈ specPartialAmps fundamentalsHz maxPartials rolloff, 0 ≤ a := by
  intro a ha
  unfold specPartialAmps at ha
  rcases List.mem_flatMap.mp ha with ⟨f0, _, hmem⟩
  rcases List.mem_map.mp hmem with ⟨n, _, hna⟩
  rw [← hna]
  exact div_nonneg zero_le_one (Real.rpow_nonneg (Nat.cast_nonneg n) _)

/-- With nonnegative weights the weighted squared deviation sum is
nonnegative. -/
theorem weightedSqDevSum_nonneg (freqs : List ℚ) (amps : List ℝ) (c : ℝ)
    (hamp : ∀ a ∈ amps, 0 ≤ a) : 0 ≤ weightedSqDevSum freqs amps c := by
  unfold weightedSqDevSum
  apply List.sum_nonneg
  intro x hx
  induction freqs generalizing amps with
  | nil => simp at hx
  | cons f fs ih =>
      cases amps with
      | nil => simp at hx
      | cons a as =>
          rw [List.zipWith_cons_cons] at hx
          rcases List.mem_cons.mp hx with hxh | hxt
          · rw [hxh]
            exact mul_nonneg (hamp a (List.mem_cons_self _ _)) (sq_nonneg _)
          · exact ih as (fun y hy => hamp y (List.mem_cons_of_mem _ hy)) hxt

/-- Characterization of `_centroid_and_spread` with nonnegative weights:
absent when there is no partial or no positive total amplitude, otherwise
the amplitude-weighted mean and the square root of the amplitude-weighted
population variance. -/
theorem centroidAndSpread_eq (freqs : List ℚ) (amps : List ℝ)
    (hamp : ∀ a ∈ amps, 0 ≤ a) :
    ((freqs = [] ∨ amps.sum ≤ 0) →
      centroidAndSpread freqs amps = (none, none)) ∧
    (freqs ≠ [] → 0 < amps.sum →
      centroidAndSpread freqs amps =
        (some (weightedFreqSum freqs amps / amps.sum),
         some (Real.sqrt (weightedSqDevSum freqs amps
           (weightedFreqSum freqs amps / amps.sum) / amps.sum)))) := by
  constructor
  · rintro (hnil | hsum)
    · unfold centroidAndSpread
      rw [if_pos (by rw [hnil]; rfl)]
    · unfold centroidAndSpread
      by_cases hnil : freqs.isEmpty = true
      · rw [if_pos hnil]
      · rw [if_neg hnil, if_pos hsum]
  · intro hne hpos
    unfold centroidAndSpread
    rw [if_neg (fun hempty => hne (List.isEmpty_iff.mp hempty)),
      if_neg (not_le.mpr hpos)]
    have hvar : 0 ≤ weightedSqDevSum freqs amps
        (weightedFreqSum freqs amps / amps.sum) / amps.sum :=
      div_nonneg (weightedSqDevSum_nonneg _ _ _ hamp) (le_of_lt hpos)
    dsimp only
    rw [max_eq_right hvar]

/-- Claim C3: for every emitted frame, centroid and spread are absent when
the frame has no partials or no positive total amplitude, and otherwise
equal the amplitude-weighted mean frequency and the square root of the
amplitude-weighted population variance (divide by total amplitude). -/
theorem spectral_c3 (cfg : Config) (verts : List Verticality)
    (frames : List SpectralFrame)
    (h : analyzeVerticalities cfg verts = Except.ok frames) :
    ∀ fr ∈ frames,
      ((specPartialFreqs fr.fundamentalsHz cfg.maxPartials = [] ∨
        (specPartialAmps fr.fundamentalsHz cfg.maxPartials
          cfg.rolloff).sum ≤ 0) →
        fr.centroidHz = none ∧ fr.spreadHz = none) ∧
      (specPartialFreqs fr.fundamentalsHz cfg.maxPartials ≠ [] →
        0 < (specPartialAmps fr.fundamentalsHz cfg.maxPartials
          cfg.rolloff).sum →
        fr.centroidHz = some (weightedFreqSum
            (specPartialFreqs fr.fundamentalsHz cfg.maxPartials)
            (specPartialAmps fr.fundamentalsHz cfg.maxPartials cfg.rolloff) /
          (specPartialAmps fr.fundamentalsHz cfg.maxPartials
            cfg.rolloff).sum) ∧
        fr.spreadHz = some (Real.sqrt (weightedSqDevSum
            (specPartialFreqs fr.fundamentalsHz cfg.maxPartials)
            (specPartialAmps fr.fundamentalsHz cfg.maxPartials cfg.rolloff)
            (weightedFreqSum
              (specPartialFreqs fr.fundamentalsHz cfg.maxPartials)
              (specPartialAmps fr.fundamentalsHz cfg.maxPartials
                cfg.rolloff) /
              (specPartialAmps fr.fundamentalsHz cfg.maxPartials
                cfg.rolloff).sum) /
          (specPartialAmps fr.fundamentalsHz cfg.maxPartials
            cfg.rolloff).sum))) := by
  intro fr hfr
  rcases analyzeVerticalities_ok_mem cfg verts frames h fr hfr with
    ⟨v, _, durationToNext, _, _, hfr_eq⟩
  have hfund : fr.fundamentalsHz = vertFundamentals cfg v := by
    rw [hfr_eq]
    rfl
  have hcen : fr.centroidHz =
      (centroidAndSpread (specPartialFreqs (vertFundamentals cfg v)
          cfg.maxPartials)
        (specPartialAmps (vertFundamentals cfg v) cfg.maxPartials
          cfg.rolloff)).1 := by
    rw [hfr_eq]
    rfl
  have hsp : fr.spreadHz =
      (centroidAndSpread (specPartialFreqs (vertFundamentals cfg v)
          cfg.maxPartials)
        (specPartialAmps (vertFundamentals cfg v) cfg.maxPartials
          cfg.rolloff)).2 := by
    rw [hfr_eq]
    rfl
  rw [hfund, hcen, hsp]
  have hchar := centroidAndSpread_eq
    (specPartialFreqs (vertFundamentals cfg v) cfg.maxPartials)
    (specPartialAmps (vertFundamentals cfg v) cfg.maxPartials cfg.rolloff)
    (specPartialAmps_nonneg _ _ _)
  constructor
  · intro hdeg
    rw [hchar.1 hdeg]
    exact ⟨rfl, rfl⟩
  · intro hne hpos
    rw [hchar.2 hne hpos]
    exact ⟨rfl, rfl⟩

/-- One fundamental, one partial, no common-partial pass. -/
def cfgOne : Config := Config.mk true true false 1 1 false 10

/-- One verticality holding one pitch of frequency 1 Hz. -/
def vertOne : Verticality :=
  Verticality.mk 0 (some 1) [MTimespan.mk (some [MPitch.mk "A0" 1])]

/-- The single verticality survives and yields its frame. -/
theorem processVertOne :
    processVert cfgOne vertOne = some (mkFrame cfgOne vertOne 1) := by
  unfold processVert
  exact if_neg (fun hk => absurd hk.1 (by decide))

/-- Concrete run of the loop on the one-pitch verticality. -/
theorem analyzeOne :
    analyzeVerticalities cfgOne [vertOne] =
      Except.ok [mkFrame cfgOne vertOne 1] := by
  rw [analyzeVerticalities_ok cfgOne
    ⟨by decide, by decide, fun hc => absurd hc (by decide)⟩,
    List.filterMap_cons, processVertOne]
  rfl

/-- The partial frequencies of the one-pitch frame. -/
theorem specPartialFreqsOne :
    specPartialFreqs (vertFundamentals cfgOne vertOne)
      cfgOne.maxPartials = [1] := by
  norm_num [specPartialFreqs, vertFundamentals, verticalityFundamentalPitches,
    collectVertPitches, cfgOne, vertOne, List.range']

/-- The partial amplitudes of the one-pitch frame. -/
theorem specPartialAmpsOne :
    specPartialAmps (vertFundamentals cfgOne vertOne) cfgOne.maxPartials
      cfgOne.rolloff = [1] := by
  norm_num [specPartialAmps, vertFundamentals, verticalityFundamentalPitches,
    collectVertPitches, cfgOne, vertOne, List.range', Real.one_rpow]

/-- The centroid of the one-pitch frame is its only partial frequency. -/
theorem mkFrameOne_centroid :
    (mkFrame cfgOne vertOne 1).centroidHz = some 1 := by
  show (centroidAndSpread (specPartialFreqs (vertFundamentals cfgOne vertOne)
      cfgOne.maxPartials)
    (specPartialAmps (vertFundamentals cfgOne vertOne) cfgOne.maxPartials
      cfgOne.rolloff)).1 = some 1
  rw [specPartialFreqsOne, specPartialAmpsOne]
  norm_num [centroidAndSpread, weightedFreqSum]

/-- The spread of the one-pitch frame is zero. -/
theorem mkFrameOne_spread :
    (mkFrame cfgOne vertOne 1).spreadHz = some 0 := by
  show (centroidAndSpread (specPartialFreqs (vertFundamentals cfgOne vertOne)
      cfgOne.maxPartials)
    (specPartialAmps (vertFundamentals cfgOne vertOne) cfgOne.maxPartials
      cfgOne.rolloff)).2 = some 0
  rw [specPartialFreqsOne, specPartialAmpsOne]
  norm_num [centroidAndSpread, weightedFreqSum, weightedSqDevSum,
    Real.sqrt_zero]

/-- Witness for claim C3 at the one-pitch frame. -/
theorem spectral_c3_witness :
    (mkFrame cfgOne vertOne 1).centroidHz =
      some (weightedFreqSum
          (specPartialFreqs (mkFrame cfgOne vertOne 1).fundamentalsHz
            cfgOne.maxPartials)
          (specPartialAmps (mkFrame cfgOne vertOne 1).fundamentalsHz
            cfgOne.maxPartials cfgOne.rolloff) /
        (specPartialAmps (mkFrame cfgOne vertOne 1).fundamentalsHz
          cfgOne.maxPartials cfgOne.rolloff).sum) ∧
    (mkFrame cfgOne vertOne 1).spreadHz =
      some (Real.sqrt (weightedSqDevSum
          (specPartialFreqs (mkFrame cfgOne vertOne 1).fundamentalsHz
            cfgOne.maxPartials)
          (specPartialAmps (mkFrame cfgOne vertOne 1).fundamentalsHz
            cfgOne.maxPartials cfgOne.rolloff)
          (weightedFreqSum
            (specPartialFreqs (mkFrame cfgOne vertOne 1).fundamentalsHz
              cfgOne.maxPartials)
            (specPartialAmps (mkFrame cfgOne vertOne 1).fundamentalsHz
              cfgOne.maxPartials cfgOne.rolloff) /
            (specPartialAmps (mkFrame cfgOne vertOne 1).fundamentalsHz
              cfgOne.maxPartials cfgOne.rolloff).sum) /
        (specPartialAmps (mkFrame cfgOne vertOne 1).fundamentalsHz
          cfgOne.maxPartials cfgOne.rolloff).sum)) :=
  (spectral_c3 cfgOne [vertOne] [mkFrame cfgOne vertOne 1] analyzeOne
    (mkFrame cfgOne vertOne 1) (List.mem_singleton.mpr rfl)).2
    (by
      rw [show (mkFrame cfgOne vertOne 1).fundamentalsHz =
        vertFundamentals cfgOne vertOne from rfl, specPartialFreqsOne]
      exact List.cons_ne_nil _ _)
    (by
      rw [show (mkFrame cfgOne vertOne 1).fundamentalsHz =
        vertFundamentals cfgOne vertOne from rfl, specPartialAmpsOne]
      norm_num)

/-- The partial frequency and amplitude lists always have the same
length. -/
theorem specPartial_length_eq (fundamentalsHz : List ℚ) (maxPartials : ℤ)
    (rolloff : ℚ) :
    (specPartialFreqs fundamentalsHz maxPartials).length =
      (specPartialAmps fundamentalsHz maxPartials rolloff).length := by
  unfold specPartialFreqs specPartialAmps
  rw [List.length_flatMap, List.length_flatMap]
  congr 1
  apply List.map_congr_left
  intro a _
  simp

/-- A nonempty rational list has a least and a greatest element. -/
theorem exists_min_max (l : List ℚ) (hne : l ≠ []) :
    ∃ lo ∈ l, ∃ hi ∈ l, ∀ x ∈ l, lo ≤ x ∧ x ≤ hi := by
  induction l with
  | nil => exact absurd rfl hne
  | cons a rest ih =>
      cases rest with
      | nil =>
          refine ⟨a, List.mem_singleton.mpr rfl, a,
            List.mem_singleton.mpr rfl, ?_⟩
          intro x hx
          rw [List.mem_singleton.mp hx]
          exact ⟨le_refl _, le_refl _⟩
      | cons b bs =>
          rcases ih (List.cons_ne_nil _ _) with ⟨lo, hlo, hi, hhi, hbound⟩
          refine ⟨min a lo, ?_, max a hi, ?_, ?_⟩
          · rcases min_cases a lo with ⟨hm, _⟩ | ⟨hm, _⟩
            · rw [hm]; exact List.mem_cons_self _ _
            · rw [hm]; exact List.mem_cons_of_mem _ hlo
          · rcases max_cases a hi with ⟨hm, _⟩ | ⟨hm, _⟩
            · rw [hm]; exact List.mem_cons_self _ _
            · rw [hm]; exact List.mem_cons_of_mem _ hhi
          · intro x hx
            rcases List.mem_cons.mp hx with hxa | hxr
            · rw [hxa]
              exact ⟨min_le_left _ _, le_max_left _ _⟩
            · rcases hbound x hxr with ⟨h1, h2⟩
              exact ⟨le_trans (min_le_right _ _) h1,
                le_trans h2 (le_max_right _ _)⟩

/-- Weighted sums against nonnegative weights respect an upper bound on
the values. -/
theorem weightedFreqSum_le (freqs : List ℚ) (amps : List ℝ) (hi : ℚ)
    (hlen : freqs.length = amps.length) (hamp : ∀ a ∈ amps, 0 ≤ a)
    (hbound : ∀ g ∈ freqs, g ≤ hi) :
    weightedFreqSum freqs amps ≤ (hi : ℝ) * amps.sum := by
  induction freqs generalizing amps with
  | nil =>
      cases amps with
      | nil => simp [weightedFreqSum]
      | cons a as => cases hlen
  | cons f fs ih =>
      cases amps with
      | nil => cases hlen
      | cons a as =>
          have ha : 0 ≤ a := hamp a (List.mem_cons_self _ _)
          have hf : (f : ℝ) ≤ (hi : ℝ) :=
            Rat.cast_le.mpr (hbound f (List.mem_cons_self _ _))
          have hrec := ih as (by simpa using hlen)
            (fun y hy => hamp y (List.mem_cons_of_mem _ hy))
            (fun g hg => hbound g (List.mem_cons_of_mem _ hg))
          unfold weightedFreqSum at hrec ⊢
          rw [List.zipWith_cons_cons, List.sum_cons, List.sum_cons, mul_add]
          exact add_le_add (mul_le_mul_of_nonneg_right hf ha) hrec

/-- Weighted sums against nonnegative weights respect a lower bound on
the values. -/
theorem le_weightedFreqSum (freqs : List ℚ) (amps : List ℝ) (lo : ℚ)
    (hlen : freqs.length = amps.length) (hamp : ∀ a ∈ amps, 0 ≤ a)
    (hbound : ∀ g ∈ freqs, lo ≤ g) :
    (lo : ℝ) * amps.sum ≤ weightedFreqSum freqs amps := by
  induction freqs generalizing amps with
  | nil =>
      cases amps with
      | nil => simp [weightedFreqSum]
      | cons a as => cases hlen
  | cons f fs ih =>
      cases amps with
      | nil => cases hlen
      | cons a as =>
          have ha : 0 ≤ a := hamp a (List.mem_cons_self _ _)
          have hf : (lo : ℝ) ≤ (f : ℝ) :=
            Rat.cast_le.mpr (hbound f (List.mem_cons_self _ _))
          have hrec := ih as (by simpa using hlen)
            (fun y hy => hamp y (List.mem_cons_of_mem _ hy))
            (fun g hg => hbound g (List.mem_cons_of_mem _ hg))
          unfold weightedFreqSum at hrec ⊢
          rw [List.zipWith_cons_cons, List.sum_cons, List.sum_cons, mul_add]
          exact add_le_add (mul_le_mul_of_nonneg_right hf ha) hrec

/-- A present centroid certifies nonempty partials, positive total
amplitude, and the weighted-mean value. -/
theorem centroidAndSpread_centroid_inv (freqs : List ℚ) (amps : List ℝ)
    (c : ℝ) (h : (centroidAndSpread freqs amps).1 = some c) :
    freqs ≠ [] ∧ 0 < amps.sum ∧
      c = weightedFreqSum freqs amps / amps.sum := by
  by_cases hempty : freqs.isEmpty = true
  · unfold centroidAndSpread at h
    rw [if_pos hempty] at h
    exact Option.noConfusion h
  · by_cases hsum : amps.sum ≤ 0
    · unfold centroidAndSpread at h
      rw [if_neg hempty, if_pos hsum] at h
      exact Option.noConfusion h
    · refine ⟨fun hnil => hempty (by rw [hnil]; rfl), not_le.mp hsum, ?_⟩
      unfold centroidAndSpread at h
      rw [if_neg hempty, if_neg hsum] at h
      exact (Option.some.inj h).symm

/-- A present spread is nonnegative. -/
theorem centroidAndSpread_spread_nonneg (freqs : List ℚ) (amps : List ℝ)
    (sp : ℝ) (h : (centroidAndSpread freqs amps).2 = some sp) : 0 ≤ sp := by
  by_cases hempty : freqs.isEmpty = true
  · unfold centroidAndSpread at h
    rw [if_pos hempty] at h
    exact Option.noConfusion h
  · by_cases hsum : amps.sum ≤ 0
    · unfold centroidAndSpread at h
      rw [if_neg hempty, if_pos hsum] at h
      exact Option.noConfusion h
    · unfold centroidAndSpread at h
      rw [if_neg hempty, if_neg hsum] at h
      rw [← Option.some.inj h]
      exact Real.sqrt_nonneg _

/-- Claim C9: in every emitted frame with centroid and spread present, the
centroid lies between the least and the greatest partial frequency and the
spread is nonnegative. -/
theorem spectral_c9 (cfg : Config) (verts : List Verticality)
    (frames : List SpectralFrame)
    (h : analyzeVerticalities cfg verts = Except.ok frames) :
    ∀ fr ∈ frames,
      (∀ c, fr.centroidHz = some c →
        ∃ lo ∈ specPartialFreqs fr.fundamentalsHz cfg.maxPartials,
        ∃ hi ∈ specPartialFreqs fr.fundamentalsHz cfg.maxPartials,
          (∀ g ∈ specPartialFreqs fr.fundamentalsHz cfg.maxPartials,
            lo ≤ g ∧ g ≤ hi) ∧
          (lo : ℝ) ≤ c ∧ c ≤ (hi : ℝ)) ∧
      (∀ sp, fr.spreadHz = some sp → 0 ≤ sp) := by
  intro fr hfr
  rcases analyzeVerticalities_ok_mem cfg verts frames h fr hfr with
    ⟨v, _, durationToNext, _, _, hfr_eq⟩
  have hfund : fr.fundamentalsHz = vertFundamentals cfg v := by
    rw [hfr_eq]; rfl
  have hcen : fr.centroidHz =
      (centroidAndSpread (specPartialFreqs (vertFundamentals cfg v)
          cfg.maxPartials)
        (specPartialAmps (vertFundamentals cfg v) cfg.maxPartials
          cfg.rolloff)).1 := by
    rw [hfr_eq]; rfl
  have hsp : fr.spreadHz =
      (centroidAndSpread (specPartialFreqs (vertFundamentals cfg v)
          cfg.maxPartials)
        (specPartialAmps (vertFundamentals cfg v) cfg.maxPartials
          cfg.rolloff)).2 := by
    rw [hfr_eq]; rfl
  constructor
  · intro c hc
    rw [hcen] at hc
    rcases centroidAndSpread_centroid_inv _ _ _ hc with ⟨hne, hpos, hcval⟩
    rcases exists_min_max _ hne with ⟨lo, hlo, hi, hhi, hbound⟩
    rw [hfund]
    refine ⟨lo, hlo, hi, hhi, hbound, ?_, ?_⟩
    · rw [hcval, le_div_iff₀ hpos]
      exact le_weightedFreqSum _ _ lo (specPartial_length_eq _ _ _)
        (specPartialAmps_nonneg _ _ _) (fun g hg => (hbound g hg).1)
    · rw [hcval, div_le_iff₀ hpos]
      exact weightedFreqSum_le _ _ hi (specPartial_length_eq _ _ _)
        (specPartialAmps_nonneg _ _ _) (fun g hg => (hbound g hg).2)
  · intro sp hspv
    rw [hsp] at hspv
    exact centroidAndSpread_spread_nonneg _ _ _ hspv

/-- Witness for claim C9 at the one-pitch frame: centroid 1 lies between
the bounds and spread 0 is nonnegative. -/
theorem spectral_c9_witness :
    (∃ lo ∈ specPartialFreqs (mkFrame cfgOne vertOne 1).fundamentalsHz
        cfgOne.maxPartials,
     ∃ hi ∈ specPartialFreqs (mkFrame cfgOne vertOne 1).fundamentalsHz
        cfgOne.maxPartials,
      (∀ g ∈ specPartialFreqs (mkFrame cfgOne vertOne 1).fundamentalsHz
        cfgOne.maxPartials, lo ≤ g ∧ g ≤ hi) ∧
      (lo : ℝ) ≤ 1 ∧ (1 : ℝ) ≤ (hi : ℝ)) ∧
    (0 : ℝ) ≤ 0 :=
  ⟨(spectral_c9 cfgOne [vertOne] [mkFrame cfgOne vertOne 1] analyzeOne
      (mkFrame cfgOne vertOne 1) (List.mem_singleton.mpr rfl)).1 1
      mkFrameOne_centroid,
   (spectral_c9 cfgOne [vertOne] [mkFrame cfgOne vertOne 1] analyzeOne
      (mkFrame cfgOne vertOne 1) (List.mem_singleton.mpr rfl)).2 0
      mkFrameOne_spread⟩

/-- Claim C6: under the collaborator guarantees (verticalities in
non-decreasing offset order, positive time to next event), the emitted
frames keep non-decreasing offsets forming a subsequence of the
verticality offsets, every frame ends strictly after it starts, and every
fundamental is strictly positive. -/
theorem spectral_c6 (cfg : Config) (verts : List Verticality)
    (frames : List SpectralFrame)
    (h : analyzeVerticalities cfg verts = Except.ok frames)
    (hmono : List.Chain' (· ≤ ·) (verts.map (fun v => v.offset)))
    (hdtpos : ∀ v ∈ verts, ∀ dt : ℚ, v.timeToNextEvent = some dt →
      0 < dt) :
    (frames.map (fun fr => fr.offset)).Sublist
      (verts.map (fun v => v.offset)) ∧
    List.Chain' (· ≤ ·) (frames.map (fun fr => fr.offset)) ∧
    (∀ fr ∈ frames, fr.offset < fr.endOffset) ∧
    (∀ fr ∈ frames, ∀ x ∈ fr.fundamentalsHz, 0 < x) := by
  have hsub : (frames.map (fun fr => fr.offset)).Sublist
      (verts.map (fun v => v.offset)) := by
    cases frames with
    | nil => simp
    | cons f fs =>
        have hv := validConfig_of_ok_mem cfg verts _ h f
          (List.mem_cons_self _ _)
        have he2 := Except.ok.inj
          ((analyzeVerticalities_ok cfg hv verts).symm.trans h)
        rw [← he2]
        exact filterMap_offsets_sublist cfg verts
  refine ⟨hsub, ?_, ?_, ?_⟩
  · rw [List.chain'_iff_pairwise] at hmono ⊢
    exact List.Pairwise.sublist hsub hmono
  · intro fr hfr
    rcases analyzeVerticalities_ok_mem cfg verts frames h fr hfr with
      ⟨v, hvmem, durationToNext, hdt, _, hfr_eq⟩
    rw [hfr_eq]
    show v.offset < v.offset + durationToNext
    have := hdtpos v hvmem durationToNext hdt
    linarith
  · intro fr hfr x hx
    rcases analyzeVerticalities_ok_mem cfg verts frames h fr hfr with
      ⟨v, _, durationToNext, _, _, hfr_eq⟩
    rw [hfr_eq] at hx
    exact vertFundamentals_pos cfg v x hx

/-- Witness for claim C6 on the one-pitch run. -/
theorem spectral_c6_witness :
    (([mkFrame cfgOne vertOne 1].map (fun fr => fr.offset)).Sublist
      ([vertOne].map (fun v => v.offset))) ∧
    List.Chain' (· ≤ ·)
      ([mkFrame cfgOne vertOne 1].map (fun fr => fr.offset)) ∧
    (∀ fr ∈ [mkFrame cfgOne vertOne 1], fr.offset < fr.endOffset) ∧
    (∀ fr ∈ [mkFrame cfgOne vertOne 1], ∀ x ∈ fr.fundamentalsHz, 0 < x) :=
  spectral_c6 cfgOne [vertOne] [mkFrame cfgOne vertOne 1] analyzeOne
    (by simp)
    (fun v hv dt hdt => by
      rw [List.mem_singleton.mp hv] at hdt
      have hdt1 : (1 : ℚ) = dt := by
        injection hdt
      rw [← hdt1]
      norm_num)

open Classical in
/-- Spec-level cluster decomposition: walk the (sorted) cents list and
chain consecutive entries into one cluster while each consecutive gap is
within the tolerance. -/
noncomputable def clusters (toleranceCents : ℝ) : List ℝ → List (List ℝ)
  | [] => []
  | c :: rest =>
      match clusters toleranceCents rest with
      | [] => [[c]]
      | [] :: _ => [[c]]
      | (d :: cl) :: cls =>
          if d - c ≤ toleranceCents then (c :: d :: cl) :: cls
          else [c] :: (d :: cl) :: cls

/-- Spec-level common-partial count: `k - 1` summed over every cluster of
size `k` (size-one clusters contribute zero). -/
noncomputable def clusterSum (toleranceCents : ℝ) (l : List ℝ) : ℕ :=
  ((clusters toleranceCents l).map (fun cl => cl.length - 1)).sum

/-- The walk equations, stated for rewriting. -/
theorem clusterWalk_nil (toleranceCents last : ℝ) (k acc : ℕ) :
    clusterWalk toleranceCents [] last k acc =
      if 1 < k then acc + (k - 1) else acc := rfl

/-- The walk equation on a cons cell. -/
theorem clusterWalk_cons (toleranceCents c last : ℝ) (rest : List ℝ)
    (k acc : ℕ) :
    clusterWalk toleranceCents (c :: rest) last k acc =
      if c - last ≤ toleranceCents then
        clusterWalk toleranceCents rest c (k + 1) acc
      else clusterWalk toleranceCents rest c 1
        (if 1 < k then acc + (k - 1) else acc) := rfl

/-- The cluster decomposition of a nonempty list starts with a cluster
holding the head. -/
theorem clusters_cons (toleranceCents : ℝ) (c : ℝ) (rest : List ℝ) :
    ∃ t cls, clusters toleranceCents (c :: rest) = (c :: t) :: cls := by
  unfold clusters
  cases hcl : clusters toleranceCents rest with
  | nil => exact ⟨[], [], rfl⟩
  | cons cl cls =>
      cases cl with
      | nil => exact ⟨[], [], rfl⟩
      | cons d t =>
          by_cases hgap : d - c ≤ toleranceCents
          · exact ⟨d :: t, cls, if_pos hgap⟩
          · exact ⟨[], (d :: t) :: cls, if_neg hgap⟩

/-- Chaining the head into the next cluster adds one overlap. -/
theorem clusterSum_cons_le (toleranceCents last c : ℝ) (rest : List ℝ)
    (hgap : c - last ≤ toleranceCents) :
    clusterSum toleranceCents (last :: c :: rest) =
      clusterSum toleranceCents (c :: rest) + 1 := by
  rcases clusters_cons toleranceCents c rest with ⟨t, cls, hcl⟩
  have hstep : clusters toleranceCents (last :: c :: rest) =
      (last :: c :: t) :: cls := by
    unfold clusters
    simp only [hcl]
    rw [if_pos hgap]
  unfold clusterSum
  rw [hstep, hcl]
  simp only [List.map_cons, List.sum_cons, List.length_cons,
    List.length_nil]
  omega

/-- A gap beyond the tolerance starts a fresh singleton cluster. -/
theorem clusterSum_cons_gt (toleranceCents last c : ℝ) (rest : List ℝ)
    (hgap : ¬c - last ≤ toleranceCents) :
    clusterSum toleranceCents (last :: c :: rest) =
      clusterSum toleranceCents (c :: rest) := by
  rcases clusters_cons toleranceCents c rest with ⟨t, cls, hcl⟩
  have hstep : clusters toleranceCents (last :: c :: rest) =
      [last] :: (c :: t) :: cls := by
    unfold clusters
    simp only [hcl]
    rw [if_neg hgap]
  unfold clusterSum
  rw [hstep, hcl]
  simp only [List.map_cons, List.sum_cons, List.length_cons,
    List.length_nil]
  omega

/-- The one-pass walk of `_common_partial_count` computes the spec-level
cluster sum, relative to the open cluster it carries. -/
theorem clusterWalk_eq_clusterSum (toleranceCents : ℝ) (rest : List ℝ) :
    ∀ (last : ℝ) (k acc : ℕ), 1 ≤ k →
      clusterWalk toleranceCents rest last k acc =
        acc + (k - 1) + clusterSum toleranceCents (last :: rest) := by
  induction rest with
  | nil =>
      intro last k acc hk
      rw [clusterWalk_nil]
      have hsing : clusterSum toleranceCents [last] = 0 := by
        unfold clusterSum clusters
        rfl
      rw [hsing]
      by_cases h1 : 1 < k
      · rw [if_pos h1]
        omega
      · rw [if_neg h1]
        omega
  | cons c rest' ih =>
      intro last k acc hk
      rw [clusterWalk_cons]
      by_cases hgap : c - last ≤ toleranceCents
      · rw [if_pos hgap, ih c (k + 1) acc (by omega),
          clusterSum_cons_le _ _ _ _ hgap]
        omega
      · rw [if_neg hgap, ih c 1 (if 1 < k then acc + (k - 1) else acc)
          (le_refl 1), clusterSum_cons_gt _ _ _ _ hgap]
        by_cases h1 : 1 < k
        · rw [if_pos h1]
          omega
        · rw [if_neg h1]
          omega

/-- The non-error value of `_common_partial_count` is the spec-level
cluster sum over the sorted cents list. -/
theorem commonCountPure_eq_clusterSum (freqs : List ℚ)
    (toleranceCents : ℚ) :
    commonCountPure freqs toleranceCents =
      clusterSum (toleranceCents : ℝ) (sortedCents freqs) := by
  unfold commonCountPure
  cases hs : sortedCents freqs with
  | nil =>
      unfold clusterSum clusters
      rfl
  | cons c0 restCents =>
      cases restCents with
      | nil =>
          show (0 : ℕ) = clusterSum (toleranceCents : ℝ) [c0]
          unfold clusterSum clusters
          rfl
      | cons c1 cs =>
          show clusterWalk (toleranceCents : ℝ) (c1 :: cs) c0 1 0 =
            clusterSum (toleranceCents : ℝ) (c0 :: c1 :: cs)
          rw [clusterWalk_eq_clusterSum _ _ _ _ _ (le_refl 1)]
          omega

/-- Every cluster-sum over pairwise-separated entries vanishes. -/
theorem clusterSum_of_pairwise_gt (toleranceCents : ℝ) (l : List ℝ)
    (hgap : List.Pairwise (fun a b => toleranceCents < b - a) l) :
    clusterSum toleranceCents l = 0 := by
  induction l with
  | nil => rfl
  | cons c rest ih =>
      cases rest with
      | nil =>
          unfold clusterSum clusters
          rfl
      | cons d rest' =>
          rcases List.pairwise_cons.mp hgap with ⟨hhead, htail⟩
          have hd := hhead d (List.mem_cons_self _ _)
          have hrest := ih htail
          rcases clusters_cons toleranceCents d rest' with ⟨t, cls, hcl⟩
          have hstep : clusters toleranceCents (c :: d :: rest') =
              [c] :: (d :: t) :: cls := by
            unfold clusters
            simp only [hcl]
            rw [if_neg (not_le.mpr hd)]
          unfold clusterSum at hrest ⊢
          rw [hstep]
          rw [hcl] at hrest
          simp only [List.map_cons, List.sum_cons, List.length_cons,
            List.length_nil] at hrest ⊢
          omega

/-- A fully chained list forms one cluster contributing its length minus
one. -/
theorem clusterSum_of_chain_le (toleranceCents : ℝ) (l : List ℝ)
    (hgap : List.Chain' (fun a b => b - a ≤ toleranceCents) l) :
    clusterSum toleranceCents l = l.length - 1 := by
  induction l with
  | nil => rfl
  | cons c rest ih =>
      cases rest with
      | nil =>
          unfold clusterSum clusters
          rfl
      | cons d rest' =>
          rcases List.chain'_cons.mp hgap with ⟨hd, htail⟩
          have hrest := ih htail
          rcases clusters_cons toleranceCents d rest' with ⟨t, cls, hcl⟩
          have hstep : clusters toleranceCents (c :: d :: rest') =
              (c :: d :: t) :: cls := by
            unfold clusters
            simp only [hcl]
            rw [if_pos hd]
          unfold clusterSum at hrest ⊢
          rw [hstep]
          rw [hcl] at hrest
          simp only [List.map_cons, List.sum_cons, List.length_cons,
            List.length_nil] at hrest ⊢
          omega

/-- Claim C4: with a positive tolerance, `_common_partial_count` returns
the sum of `k - 1` over the clusters obtained by chaining consecutive
entries of the sorted positive-cents list while gaps stay within the
tolerance; in particular it returns 0 when every two sorted cents entries
are more than the tolerance apart, and `N - 1` (for the `N` positive
partials) when every consecutive gap is within the tolerance. -/
theorem spectral_c4 (freqs : List ℚ) (toleranceCents : ℚ)
    (htol : 0 < toleranceCents) :
    commonPartialCountOf freqs toleranceCents =
      Except.ok (clusterSum (toleranceCents : ℝ) (sortedCents freqs)) ∧
    (List.Pairwise (fun a b => (toleranceCents : ℝ) < b - a)
        (sortedCents freqs) →
      commonPartialCountOf freqs toleranceCents = Except.ok 0) ∧
    (List.Chain' (fun a b => b - a ≤ (toleranceCents : ℝ))
        (sortedCents freqs) →
      commonPartialCountOf freqs toleranceCents =
        Except.ok ((sortedCents freqs).length - 1)) := by
  have hmain : commonPartialCountOf freqs toleranceCents =
      Except.ok (clusterSum (toleranceCents : ℝ) (sortedCents freqs)) := by
    rw [commonPartialCountOf_ok _ _ htol, commonCountPure_eq_clusterSum]
  refine ⟨hmain, ?_, ?_⟩
  · intro hgap
    rw [hmain, clusterSum_of_pairwise_gt _ _ hgap]
  · intro hgap
    rw [hmain, clusterSum_of_chain_le _ _ hgap]

/-- One hertz sits at zero cents. -/
theorem centsValOne : centsVal 1 = 0 := by
  unfold centsVal
  rw [Rat.cast_one, Real.logb_one, mul_zero]

/-- Two hertz sits at 1200 cents (one octave). -/
theorem centsValTwo : centsVal 2 = 1200 := by
  unfold centsVal
  rw [show ((2 : ℚ) : ℝ) = 2 by norm_num,
    Real.logb_self_eq_one (by norm_num), mul_one]

/-- The sorted cents list of the two frequencies 1 Hz and 2 Hz. -/
theorem sortedCentsPair : sortedCents [1, 2] = [centsVal 1, centsVal 2] := by
  unfold sortedCents
  rw [show ([1, 2] : List ℚ).filter (fun f => 0 < f) = [1, 2] by decide,
    List.map_cons, List.map_cons, List.map_nil]
  show List.orderedInsert _ (centsVal 1)
    (List.orderedInsert _ (centsVal 2) []) = _
  rw [List.orderedInsert, List.orderedInsert,
    if_pos (by rw [centsValOne, centsValTwo]; norm_num)]

/-- Witness for claim C4: partials 1 Hz and 2 Hz are 1200 cents apart, so
with tolerance 100 cents no partial is counted as common. -/
theorem spectral_c4_witness :
    commonPartialCountOf [1, 2] 100 =
      Except.ok (clusterSum ((100 : ℚ) : ℝ) (sortedCents [1, 2])) ∧
    commonPartialCountOf [1, 2] 100 = Except.ok 0 :=
  ⟨(spectral_c4 [1, 2] 100 (by decide)).1,
   (spectral_c4 [1, 2] 100 (by decide)).2.1 (by
      rw [sortedCentsPair]
      refine List.Pairwise.cons ?_ (List.pairwise_singleton _ _)
      intro b hb
      rw [List.mem_singleton.mp hb, centsValOne, centsValTwo]
      norm_num)⟩
